import Mathlib

/-!
# Recursive Least Squares (Self-Driving-Cars-Specialization, Module 1)

A shallow embedding, over exact rational arithmetic, of the notebook
`Recursive Least Squares.ipynb`: the batch least-squares solve (cell 4)
and the recursive least-squares update loop (cell 7).

Vectors of length 2 and 2x2 matrices are embedded as explicit structures
over `ℚ`; the single-observation innovation covariance is a scalar, and
`np.linalg.inv` on the 1x1 innovation covariance is a scalar reciprocal
that raises on an exactly singular input, embedded as an `Option`.
-/

namespace RLS

/-- A 2-vector (column vector, or a 1x2 row when used as an observation row). -/
@[ext]
structure Vec2 where
  x : ℚ
  y : ℚ
deriving DecidableEq, Repr

/-- A 2x2 matrix with entries `a b / c d`. -/
@[ext]
structure Mat2 where
  a : ℚ
  b : ℚ
  c : ℚ
  d : ℚ
deriving DecidableEq, Repr

/-- Vector addition. -/
def Vec2.add (u v : Vec2) : Vec2 := ⟨u.x + v.x, u.y + v.y⟩

/-- Scalar multiple of a vector. -/
def Vec2.smul (v : Vec2) (s : ℚ) : Vec2 := ⟨v.x * s, v.y * s⟩

/-- Dot product of two 2-vectors (`H @ x`, or `(H P) @ H.T`). -/
def dot (u v : Vec2) : ℚ := u.x * v.x + u.y * v.y

/-- Row vector times matrix: `H @ P` for a 1x2 row `H`. -/
def vecMulMat (h : Vec2) (P : Mat2) : Vec2 :=
  ⟨h.x * P.a + h.y * P.c, h.x * P.b + h.y * P.d⟩

/-- Matrix times column vector: `P @ H.T`. -/
def matMulVec (P : Mat2) (h : Vec2) : Vec2 :=
  ⟨P.a * h.x + P.b * h.y, P.c * h.x + P.d * h.y⟩

/-- Outer product `K @ H` of a 2x1 column `K` with a 1x2 row `H`. -/
def outer (k h : Vec2) : Mat2 :=
  ⟨k.x * h.x, k.x * h.y, k.y * h.x, k.y * h.y⟩

/-- Matrix product of two 2x2 matrices. -/
def Mat2.mul (M N : Mat2) : Mat2 :=
  ⟨M.a * N.a + M.b * N.c, M.a * N.b + M.b * N.d,
   M.c * N.a + M.d * N.c, M.c * N.b + M.d * N.d⟩

/-- Matrix difference. -/
def Mat2.sub (M N : Mat2) : Mat2 :=
  ⟨M.a - N.a, M.b - N.b, M.c - N.c, M.d - N.d⟩

/-- Matrix sum. -/
def Mat2.add (M N : Mat2) : Mat2 :=
  ⟨M.a + N.a, M.b + N.b, M.c + N.c, M.d + N.d⟩

/-- Scalar multiple of a matrix. -/
def Mat2.smulM (s : ℚ) (M : Mat2) : Mat2 :=
  ⟨s * M.a, s * M.b, s * M.c, s * M.d⟩

/-- The 2x2 identity `np.eye(2)`. -/
def Mat2.id : Mat2 := ⟨1, 0, 0, 1⟩

/-- Determinant of a 2x2 matrix. -/
def Mat2.det (M : Mat2) : ℚ := M.a * M.d - M.b * M.c

/-- 2x2 matrix inverse (`np.linalg.inv` on a 2x2 argument), by the adjugate
formula; used only by the batch solution where the normal matrix is
invertible on the canonical data. -/
def Mat2.inv2 (M : Mat2) : Mat2 :=
  ⟨M.d / M.det, -M.b / M.det, -M.c / M.det, M.a / M.det⟩

/-- The innovation covariance `H_k @ P_k @ H_k.T + R_k` with `H_k = [I_k, 1]`,
a scalar since the observation is 1-dimensional (cell 7, gain line). -/
def innovS (Pk : Mat2) (Ik Rk : ℚ) : ℚ :=
  dot (vecMulMat ⟨Ik, 1⟩ Pk) ⟨Ik, 1⟩ + Rk

/-- The gain `K_k = P_k @ H_k.T @ inv(H_k @ P_k @ H_k.T + R_k)` (cell 7);
the 1x1 inversion is the scalar reciprocal of `innovS`. -/
def gain (Pk : Mat2) (Ik Rk : ℚ) : Vec2 :=
  Vec2.smul (matMulVec Pk ⟨Ik, 1⟩) (innovS Pk Ik Rk)⁻¹

/-- One iteration of the recursive update loop of cell 7:
`H_k = [[I[k], 1.0]]`;
`K_k = P_k @ H_k.T @ inv(H_k @ P_k @ H_k.T + R_k)`;
`x_k = x_k + K_k @ (V[k] - H_k @ x_k)`;
`P_k = (np.eye(2) - K_k @ H_k) @ P_k`. -/
def update (xk : Vec2) (Pk : Mat2) (Ik Vk Rk : ℚ) : Vec2 × Mat2 :=
  let Hk : Vec2 := ⟨Ik, 1⟩
  let Kk : Vec2 := gain Pk Ik Rk
  let xk' : Vec2 := Vec2.add xk (Vec2.smul Kk (Vk - dot Hk xk))
  let Pk' : Mat2 := Mat2.mul (Mat2.sub Mat2.id (outer Kk Hk)) Pk
  (xk', Pk')

/-- The update with the failure of `np.linalg.inv` on an exactly singular 1x1
innovation covariance made explicit: `none` models the `LinAlgError` raised
when `S = 0`, in which case `x_k` and `P_k` are not assigned. -/
def updateE (xk : Vec2) (Pk : Mat2) (Ik Vk Rk : ℚ) : Option (Vec2 × Mat2) :=
  if innovS Pk Ik Rk = 0 then none else some (update xk Pk Ik Vk Rk)

/-- Modelled from the spec: the `update(I_k, V_k, noise_variance)` algorithm as
worded in the specification, step by step — build `H = [I_k, 1]`; innovation
covariance `S = H P Ht + noise_variance`; gain `K = P Ht S⁻¹` (scalar
reciprocal); residual `r = V_k - H x`; parameter update `x + K r`; covariance
update `(I₂ - K H) P` using the pre-update `P`. -/
def spec_update (xk : Vec2) (Pk : Mat2) (Ik Vk nv : ℚ) : Vec2 × Mat2 :=
  let H : Vec2 := ⟨Ik, 1⟩
  let S : ℚ := dot (vecMulMat H Pk) H + nv
  let K : Vec2 := Vec2.smul (matMulVec Pk H) S⁻¹
  let r : ℚ := Vk - dot H xk
  let x' : Vec2 := Vec2.add xk (Vec2.smul K r)
  let P' : Mat2 := Mat2.mul (Mat2.sub Mat2.id (outer K H)) Pk
  (x', P')

/-- Folding `update` over a measurement list from state `st`. -/
def runFrom (st : Vec2 × Mat2) (Rk : ℚ) (ms : List (ℚ × ℚ)) : Vec2 × Mat2 :=
  ms.foldl (fun s m => update s.1 s.2 m.1 m.2 Rk) st

/-- The history of `(x, P)` snapshots: entry 0 is the starting state, and each
measurement appends the post-update state (`x_hist` / `P_hist` of cell 7). -/
def hist (st : Vec2 × Mat2) (Rk : ℚ) : List (ℚ × ℚ) → List (Vec2 × Mat2)
  | [] => [st]
  | m :: ms => st :: hist (update st.1 st.2 m.1 m.2 Rk) Rk ms

/-- The current readings `I` (cell 1). -/
def Idata : List ℚ := [2/10, 3/10, 4/10, 5/10, 6/10]

/-- The voltage readings `V` (cell 1). -/
def Vdata : List ℚ := [123/100, 138/100, 206/100, 247/100, 317/100]

/-- The measurement sequence of (current, voltage) pairs. -/
def meas : List (ℚ × ℚ) := Idata.zip Vdata

/-- The prior mean `x_0 = (4, 0)` (cell 7). -/
def x0 : Vec2 := ⟨4, 0⟩

/-- The prior covariance `P_0 = diag(9, 0.2)` (cell 7). -/
def P0 : Mat2 := ⟨9, 0, 0, 2/10⟩

/-- The measurement noise variance `R_k = 0.0225` (cell 7). -/
def Rnoise : ℚ := 225/10000

/-- The batch least-squares solution of cell 4:
`x_ls = inv(H.T @ H) @ (H.T @ V)` for the 5x2 design matrix `H` whose first
column is `I` and whose second column is all ones, reduced to the 2x2 normal
equations. -/
def batchLS (is vs : List ℚ) : Vec2 :=
  let sII : ℚ := (is.map fun i => i * i).sum
  let sI : ℚ := is.sum
  let n : ℚ := is.length
  let sIV : ℚ := ((is.zip vs).map fun p => p.1 * p.2).sum
  let sV : ℚ := vs.sum
  matMulVec (Mat2.inv2 ⟨sII, sI, sI, n⟩) ⟨sIV, sV⟩

/-- A numpy array: a shape together with the row-major flat data buffer. -/
structure NpArr where
  shape : List Nat
  data : List ℚ
deriving DecidableEq, Repr

/-- `arr.reshape(n)`: a size-compatible reshape keeps the row-major flat
buffer and installs the new shape (the notebook only reshapes `(5,1)` and
`(5,)` to `(5,)`, both size-compatible). -/
def reshape1 (arr : NpArr) (n : Nat) : NpArr := ⟨[n], arr.data⟩

/-- The loop of cell 7 with the in-place rebinding `I = I.reshape(I.shape[0])`
of each iteration made explicit: the current `I` array is threaded through,
reshaped, and indexed for `H_k`; `fuel` counts the remaining iterations of
`for k in range(num_meas)`. -/
def nbLoop (Rk : ℚ) : Nat → Nat → NpArr → List ℚ → Vec2 × Mat2 →
    (Vec2 × Mat2) × NpArr
  | 0, _, Iarr, _, st => (st, Iarr)
  | fuel + 1, k, Iarr, vs, st =>
      let Iarr2 := reshape1 Iarr (Iarr.shape.headD 0)
      let st2 := update st.1 st.2 (Iarr2.data.getD k 0) (vs.getD k 0) Rk
      nbLoop Rk fuel (k + 1) Iarr2 vs st2

/-- The whole recursive cell on the canonical data, starting from the column
array `I` of shape `(5, 1)`; returns the final state and the final `I`. -/
def runNb : (Vec2 × Mat2) × NpArr :=
  nbLoop Rnoise 5 0 ⟨[5, 1], Idata⟩ Vdata (x0, P0)

/-! ## Closed-form component lemmas for one update step -/

/-- The update written out entrywise, keeping the innovation covariance
`innovS` as an opaque scalar. -/
theorem update_eq (xx xy a b c d Ik Vk Rk : ℚ) :
    update ⟨xx, xy⟩ ⟨a, b, c, d⟩ Ik Vk Rk =
      (⟨xx + (a*Ik + b) * (innovS ⟨a, b, c, d⟩ Ik Rk)⁻¹ * (Vk - (Ik*xx + xy)),
        xy + (c*Ik + d) * (innovS ⟨a, b, c, d⟩ Ik Rk)⁻¹ * (Vk - (Ik*xx + xy))⟩,
       ⟨a - (a*Ik + b) * (Ik*a + c) * (innovS ⟨a, b, c, d⟩ Ik Rk)⁻¹,
        b - (a*Ik + b) * (Ik*b + d) * (innovS ⟨a, b, c, d⟩ Ik Rk)⁻¹,
        c - (c*Ik + d) * (Ik*a + c) * (innovS ⟨a, b, c, d⟩ Ik Rk)⁻¹,
        d - (c*Ik + d) * (Ik*b + d) * (innovS ⟨a, b, c, d⟩ Ik Rk)⁻¹⟩) := by
  simp only [update, gain, innovS, dot, vecMulMat, matMulVec, outer,
    Mat2.mul, Mat2.sub, Mat2.id, Vec2.add, Vec2.smul, Prod.mk.injEq,
    Vec2.mk.injEq, Mat2.mk.injEq]
  refine ⟨⟨by ring, by ring⟩, by ring, by ring, by ring, by ring⟩

/-- The posterior covariance entrywise, as fractions over the innovation
covariance: `P' = (Rk * P + det P * [1, -Ik; -Ik, Ik^2]) / S`. -/
theorem update_P_frac (xk : Vec2) (Pk : Mat2) (Ik Vk Rk : ℚ)
    (hS : innovS Pk Ik Rk ≠ 0) :
    (update xk Pk Ik Vk Rk).2 =
      ⟨(Pk.a * Rk + Mat2.det Pk) / innovS Pk Ik Rk,
       (Pk.b * Rk - Ik * Mat2.det Pk) / innovS Pk Ik Rk,
       (Pk.c * Rk - Ik * Mat2.det Pk) / innovS Pk Ik Rk,
       (Pk.d * Rk + Ik * Ik * Mat2.det Pk) / innovS Pk Ik Rk⟩ := by
  obtain ⟨xx, xy⟩ := xk
  obtain ⟨a, b, c, d⟩ := Pk
  rw [update_eq]
  dsimp only
  simp only [Mat2.mk.injEq, Mat2.det]
  set S : ℚ := innovS ⟨a, b, c, d⟩ Ik Rk with hSdef
  refine ⟨?_, ?_, ?_, ?_⟩ <;>
  · field_simp
    try rw [hSdef]
    try simp only [innovS, dot, vecMulMat]
    first
    | ring1
    | exact Or.inl trivial
    | (left; ring1)
    | (right; ring1)

/-- The determinant of the posterior covariance: `det P' = Rk * det P / S`. -/
theorem det_update (xk : Vec2) (Pk : Mat2) (Ik Vk Rk : ℚ)
    (hS : innovS Pk Ik Rk ≠ 0) :
    Mat2.det (update xk Pk Ik Vk Rk).2 =
      Rk * Mat2.det Pk / innovS Pk Ik Rk := by
  rw [update_P_frac xk Pk Ik Vk Rk hS]
  obtain ⟨a, b, c, d⟩ := Pk
  simp only [Mat2.det]
  set S : ℚ := innovS ⟨a, b, c, d⟩ Ik Rk with hSdef
  field_simp
  rw [hSdef]
  simp only [innovS, dot, vecMulMat]
  ring

/-! ## Positivity of the innovation covariance; preservation of symmetry
and positive semidefiniteness -/

/-- A nonnegative-definite 2x2 quadratic form is nonnegative. -/
theorem quad_nonneg (a b d t : ℚ) (ha : 0 ≤ a) (hd : 0 ≤ d)
    (hdet : 0 ≤ a * d - b * b) : 0 ≤ a * t ^ 2 + 2 * b * t + d := by
  rcases eq_or_lt_of_le ha with ha0 | hapos
  · have hb : b = 0 := by nlinarith [sq_nonneg b]
    rw [← ha0, hb]
    nlinarith
  · nlinarith [sq_nonneg (a * t + b), hdet]

/-- With a symmetric positive-semidefinite covariance and a positive noise
variance, the innovation covariance is strictly positive. -/
theorem innovS_pos (Pk : Mat2) (Ik Rk : ℚ) (hsym : Pk.b = Pk.c)
    (ha : 0 ≤ Pk.a) (hd : 0 ≤ Pk.d) (hdet : 0 ≤ Mat2.det Pk)
    (hR : 0 < Rk) : 0 < innovS Pk Ik Rk := by
  obtain ⟨a, b, c, d⟩ := Pk
  simp only [Mat2.det] at hdet
  dsimp only at hsym ha hd
  subst hsym
  simp only [innovS, dot, vecMulMat]
  have h := quad_nonneg a b d Ik ha hd hdet
  nlinarith

/-- One update step preserves symmetry and positive semidefiniteness of the
covariance when the noise variance is positive. -/
theorem update_good (xk : Vec2) (Pk : Mat2) (Ik Vk Rk : ℚ)
    (hsym : Pk.b = Pk.c) (ha : 0 ≤ Pk.a) (hd : 0 ≤ Pk.d)
    (hdet : 0 ≤ Mat2.det Pk) (hR : 0 < Rk) :
    (update xk Pk Ik Vk Rk).2.b = (update xk Pk Ik Vk Rk).2.c ∧
    0 ≤ (update xk Pk Ik Vk Rk).2.a ∧ 0 ≤ (update xk Pk Ik Vk Rk).2.d ∧
    0 ≤ Mat2.det (update xk Pk Ik Vk Rk).2 := by
  have hS := innovS_pos Pk Ik Rk hsym ha hd hdet hR
  rw [det_update xk Pk Ik Vk Rk hS.ne', update_P_frac xk Pk Ik Vk Rk hS.ne']
  dsimp only
  refine ⟨by rw [hsym], ?_, ?_, ?_⟩
  · exact div_nonneg (by nlinarith) hS.le
  · exact div_nonneg (by nlinarith [sq_nonneg Ik]) hS.le
  · exact div_nonneg (by nlinarith) hS.le

/-- One update step preserves strict positivity of the covariance
determinant when the noise variance is positive. -/
theorem update_detpos (xk : Vec2) (Pk : Mat2) (Ik Vk Rk : ℚ)
    (hsym : Pk.b = Pk.c) (ha : 0 ≤ Pk.a) (hd : 0 ≤ Pk.d)
    (hdet : 0 < Mat2.det Pk) (hR : 0 < Rk) :
    0 < Mat2.det (update xk Pk Ik Vk Rk).2 := by
  have hS := innovS_pos Pk Ik Rk hsym ha hd hdet.le hR
  rw [det_update xk Pk Ik Vk Rk hS.ne']
  positivity

/-- A whole run preserves symmetry and positive semidefiniteness of the
covariance when the noise variance is positive. -/
theorem runFrom_good (Rk : ℚ) (hR : 0 < Rk) :
    ∀ (ms : List (ℚ × ℚ)) (xk : Vec2) (Pk : Mat2), Pk.b = Pk.c →
      0 ≤ Pk.a → 0 ≤ Pk.d → 0 ≤ Mat2.det Pk →
      (runFrom (xk, Pk) Rk ms).2.b = (runFrom (xk, Pk) Rk ms).2.c ∧
      0 ≤ (runFrom (xk, Pk) Rk ms).2.a ∧ 0 ≤ (runFrom (xk, Pk) Rk ms).2.d ∧
      0 ≤ Mat2.det (runFrom (xk, Pk) Rk ms).2 := by
  intro ms
  induction ms with
  | nil =>
      intro xk Pk hsym ha hd hdet
      exact ⟨hsym, ha, hd, hdet⟩
  | cons m ms ih =>
      intro xk Pk hsym ha hd hdet
      obtain ⟨h1, h2, h3, h4⟩ := update_good xk Pk m.1 m.2 Rk hsym ha hd hdet hR
      exact ih (update xk Pk m.1 m.2 Rk).1 (update xk Pk m.1 m.2 Rk).2 h1 h2 h3 h4

/-! ## Information form of the update -/

/-- The inverse covariance transforms additively under an update:
`P'⁻¹ = P⁻¹ + (1/Rk) Hᵀ H`. -/
theorem infoMat_update (xk : Vec2) (Pk : Mat2) (Ik Vk Rk : ℚ)
    (hS : innovS Pk Ik Rk ≠ 0) (hdet : Mat2.det Pk ≠ 0) (hR : Rk ≠ 0) :
    Mat2.inv2 (update xk Pk Ik Vk Rk).2 =
      Mat2.add (Mat2.inv2 Pk) (Mat2.smulM Rk⁻¹ (outer ⟨Ik, 1⟩ ⟨Ik, 1⟩)) := by
  have hdU := det_update xk Pk Ik Vk Rk hS
  have hP := update_P_frac xk Pk Ik Vk Rk hS
  obtain ⟨a, b, c, d⟩ := Pk
  simp only [Mat2.inv2]
  rw [hdU]
  simp only [hP, Mat2.add, Mat2.smulM, outer, Mat2.mk.injEq]
  simp only [Mat2.det] at hdet ⊢
  set S : ℚ := innovS ⟨a, b, c, d⟩ Ik Rk with hSdef
  refine ⟨?_, ?_, ?_, ?_⟩ <;>
  · field_simp
    try rw [hSdef]
    try simp only [innovS, dot, vecMulMat]
    first
    | ring1
    | exact Or.inl trivial
    | (left; ring1)
    | (right; ring1)

/-- The information vector `P⁻¹ x` transforms additively under an update:
`P'⁻¹ x' = P⁻¹ x + (Vk/Rk) Hᵀ`. -/
theorem infoVec_update (xk : Vec2) (Pk : Mat2) (Ik Vk Rk : ℚ)
    (hS : innovS Pk Ik Rk ≠ 0) (hdet : Mat2.det Pk ≠ 0) (hR : Rk ≠ 0) :
    matMulVec (Mat2.inv2 (update xk Pk Ik Vk Rk).2) (update xk Pk Ik Vk Rk).1 =
      Vec2.add (matMulVec (Mat2.inv2 Pk) xk) (Vec2.smul ⟨Ik, 1⟩ (Vk * Rk⁻¹)) := by
  have hdU := det_update xk Pk Ik Vk Rk hS
  have hP := update_P_frac xk Pk Ik Vk Rk hS
  obtain ⟨xx, xy⟩ := xk
  obtain ⟨a, b, c, d⟩ := Pk
  have hx := update_eq xx xy a b c d Ik Vk Rk
  simp only [Mat2.inv2]
  rw [hdU]
  simp only [hP, hx, Vec2.add, Vec2.smul, matMulVec, Vec2.mk.injEq]
  simp only [Mat2.det] at hdet ⊢
  set S : ℚ := innovS ⟨a, b, c, d⟩ Ik Rk with hSdef
  constructor <;>
  · field_simp
    try rw [hSdef]
    try simp only [innovS, dot, vecMulMat]
    first
    | ring1
    | exact Or.inl trivial
    | (left; ring1)
    | (right; ring1)

/-- The determinant of the 2x2 inverse is the inverse determinant. -/
theorem det_inv2 (M : Mat2) (hdet : Mat2.det M ≠ 0) :
    Mat2.det (Mat2.inv2 M) = (Mat2.det M)⁻¹ := by
  obtain ⟨a, b, c, d⟩ := M
  simp only [Mat2.inv2, Mat2.det] at hdet ⊢
  field_simp
  first
  | ring1
  | exact Or.inl trivial
  | (left; ring1)
  | (right; ring1)

/-- The 2x2 inverse is an involution on matrices of nonzero determinant. -/
theorem inv2_inv2 (M : Mat2) (hdet : Mat2.det M ≠ 0) :
    Mat2.inv2 (Mat2.inv2 M) = M := by
  have hdi := det_inv2 M hdet
  show (⟨(Mat2.inv2 M).d / Mat2.det (Mat2.inv2 M),
        -(Mat2.inv2 M).b / Mat2.det (Mat2.inv2 M),
        -(Mat2.inv2 M).c / Mat2.det (Mat2.inv2 M),
        (Mat2.inv2 M).a / Mat2.det (Mat2.inv2 M)⟩ : Mat2) = M
  rw [hdi]
  obtain ⟨a, b, c, d⟩ := M
  simp only [Mat2.inv2, Mat2.det, Mat2.mk.injEq] at hdet ⊢
  refine ⟨?_, ?_, ?_, ?_⟩ <;>
  · field_simp
    try ring

/-- Multiplying by `M` undoes multiplying by `M⁻¹` when `det M ≠ 0`. -/
theorem matMulVec_inv2 (M : Mat2) (v : Vec2) (hdet : Mat2.det M ≠ 0) :
    matMulVec M (matMulVec (Mat2.inv2 M) v) = v := by
  obtain ⟨a, b, c, d⟩ := M
  obtain ⟨vx, vy⟩ := v
  simp only [Mat2.det] at hdet
  simp only [Mat2.inv2, Mat2.det, matMulVec, Vec2.mk.injEq]
  constructor <;>
  · field_simp
    ring

/-! ## Commutation of updates and order invariance -/

/-- Two successive updates with different measurements commute, from a
symmetric positive-definite covariance with positive noise variance. -/
theorem update_comm (xk : Vec2) (Pk : Mat2) (I1 V1 I2 V2 Rk : ℚ)
    (hsym : Pk.b = Pk.c) (ha : 0 ≤ Pk.a) (hd : 0 ≤ Pk.d)
    (hdet : 0 < Mat2.det Pk) (hR : 0 < Rk) :
    update (update xk Pk I1 V1 Rk).1 (update xk Pk I1 V1 Rk).2 I2 V2 Rk =
    update (update xk Pk I2 V2 Rk).1 (update xk Pk I2 V2 Rk).2 I1 V1 Rk := by
  have hRne : Rk ≠ 0 := hR.ne'
  have hS1 := innovS_pos Pk I1 Rk hsym ha hd hdet.le hR
  have hS2 := innovS_pos Pk I2 Rk hsym ha hd hdet.le hR
  obtain ⟨hsym1, ha1, hd1, -⟩ := update_good xk Pk I1 V1 Rk hsym ha hd hdet.le hR
  obtain ⟨hsym2, ha2, hd2, -⟩ := update_good xk Pk I2 V2 Rk hsym ha hd hdet.le hR
  have hdet1 := update_detpos xk Pk I1 V1 Rk hsym ha hd hdet hR
  have hdet2 := update_detpos xk Pk I2 V2 Rk hsym ha hd hdet hR
  have hS12 := innovS_pos (update xk Pk I1 V1 Rk).2 I2 Rk hsym1 ha1 hd1 hdet1.le hR
  have hS21 := innovS_pos (update xk Pk I2 V2 Rk).2 I1 Rk hsym2 ha2 hd2 hdet2.le hR
  have hdet12 := update_detpos (update xk Pk I1 V1 Rk).1 (update xk Pk I1 V1 Rk).2
    I2 V2 Rk hsym1 ha1 hd1 hdet1 hR
  have hdet21 := update_detpos (update xk Pk I2 V2 Rk).1 (update xk Pk I2 V2 Rk).2
    I1 V1 Rk hsym2 ha2 hd2 hdet2 hR
  have hM : Mat2.inv2 (update (update xk Pk I1 V1 Rk).1 (update xk Pk I1 V1 Rk).2
      I2 V2 Rk).2 =
      Mat2.inv2 (update (update xk Pk I2 V2 Rk).1 (update xk Pk I2 V2 Rk).2
      I1 V1 Rk).2 := by
    rw [infoMat_update _ _ _ _ _ hS12.ne' hdet1.ne' hRne,
      infoMat_update _ _ _ _ _ hS21.ne' hdet2.ne' hRne,
      infoMat_update xk Pk I1 V1 Rk hS1.ne' hdet.ne' hRne,
      infoMat_update xk Pk I2 V2 Rk hS2.ne' hdet.ne' hRne]
    apply Mat2.ext <;> simp only [Mat2.add] <;> ring
  have hPeq : (update (update xk Pk I1 V1 Rk).1 (update xk Pk I1 V1 Rk).2
      I2 V2 Rk).2 =
      (update (update xk Pk I2 V2 Rk).1 (update xk Pk I2 V2 Rk).2 I1 V1 Rk).2 := by
    rw [← inv2_inv2 (update (update xk Pk I1 V1 Rk).1 (update xk Pk I1 V1 Rk).2
      I2 V2 Rk).2 hdet12.ne', hM,
      inv2_inv2 (update (update xk Pk I2 V2 Rk).1 (update xk Pk I2 V2 Rk).2
      I1 V1 Rk).2 hdet21.ne']
  have hV : matMulVec (Mat2.inv2 (update (update xk Pk I1 V1 Rk).1
      (update xk Pk I1 V1 Rk).2 I2 V2 Rk).2)
      (update (update xk Pk I1 V1 Rk).1 (update xk Pk I1 V1 Rk).2 I2 V2 Rk).1 =
      matMulVec (Mat2.inv2 (update (update xk Pk I2 V2 Rk).1
      (update xk Pk I2 V2 Rk).2 I1 V1 Rk).2)
      (update (update xk Pk I2 V2 Rk).1 (update xk Pk I2 V2 Rk).2 I1 V1 Rk).1 := by
    rw [infoVec_update _ _ _ _ _ hS12.ne' hdet1.ne' hRne,
      infoVec_update _ _ _ _ _ hS21.ne' hdet2.ne' hRne,
      infoVec_update xk Pk I1 V1 Rk hS1.ne' hdet.ne' hRne,
      infoVec_update xk Pk I2 V2 Rk hS2.ne' hdet.ne' hRne]
    apply Vec2.ext <;> simp only [Vec2.add, Vec2.smul] <;> ring
  have hxeq : (update (update xk Pk I1 V1 Rk).1 (update xk Pk I1 V1 Rk).2
      I2 V2 Rk).1 =
      (update (update xk Pk I2 V2 Rk).1 (update xk Pk I2 V2 Rk).2 I1 V1 Rk).1 := by
    rw [← matMulVec_inv2 (update (update xk Pk I1 V1 Rk).1
        (update xk Pk I1 V1 Rk).2 I2 V2 Rk).2
        (update (update xk Pk I1 V1 Rk).1 (update xk Pk I1 V1 Rk).2 I2 V2 Rk).1
        hdet12.ne',
      ← matMulVec_inv2 (update (update xk Pk I2 V2 Rk).1
        (update xk Pk I2 V2 Rk).2 I1 V1 Rk).2
        (update (update xk Pk I2 V2 Rk).1 (update xk Pk I2 V2 Rk).2 I1 V1 Rk).1
        hdet21.ne', hV, hPeq]
  exact Prod.ext hxeq hPeq

/-- Runs over permuted measurement lists give the same final state, from a
symmetric positive-definite prior with positive noise variance. -/
theorem runFrom_perm (Rk : ℚ) (hR : 0 < Rk) {l1 l2 : List (ℚ × ℚ)}
    (hp : l1.Perm l2) :
    ∀ (xk : Vec2) (Pk : Mat2), Pk.b = Pk.c → 0 ≤ Pk.a → 0 ≤ Pk.d →
      0 < Mat2.det Pk →
      runFrom (xk, Pk) Rk l1 = runFrom (xk, Pk) Rk l2 := by
  induction hp with
  | nil =>
      intro xk Pk _ _ _ _
      rfl
  | cons m hp ih =>
      intro xk Pk hsym ha hd hdet
      obtain ⟨hsym1, ha1, hd1, -⟩ :=
        update_good xk Pk m.1 m.2 Rk hsym ha hd hdet.le hR
      have hdet1 := update_detpos xk Pk m.1 m.2 Rk hsym ha hd hdet hR
      exact ih (update xk Pk m.1 m.2 Rk).1 (update xk Pk m.1 m.2 Rk).2
        hsym1 ha1 hd1 hdet1
  | swap m1 m2 l =>
      intro xk Pk hsym ha hd hdet
      show runFrom (update (update xk Pk m2.1 m2.2 Rk).1
          (update xk Pk m2.1 m2.2 Rk).2 m1.1 m1.2 Rk) Rk l =
        runFrom (update (update xk Pk m1.1 m1.2 Rk).1
          (update xk Pk m1.1 m1.2 Rk).2 m2.1 m2.2 Rk) Rk l
      rw [update_comm xk Pk m2.1 m2.2 m1.1 m1.2 Rk hsym ha hd hdet hR]
  | trans hp1 hp2 ih1 ih2 =>
      intro xk Pk hsym ha hd hdet
      exact (ih1 xk Pk hsym ha hd hdet).trans (ih2 xk Pk hsym ha hd hdet)

/-! ## History of snapshots -/

/-- The history has one entry more than the number of measurements. -/
theorem hist_length (Rk : ℚ) :
    ∀ (ms : List (ℚ × ℚ)) (st : Vec2 × Mat2),
      (hist st Rk ms).length = ms.length + 1 := by
  intro ms
  induction ms with
  | nil =>
      intro st
      rfl
  | cons m ms ih =>
      intro st
      simp only [hist, List.length_cons, ih]

/-- Entry `k` of the history is the state after the first `k` measurements. -/
theorem hist_get (Rk : ℚ) :
    ∀ (ms : List (ℚ × ℚ)) (st : Vec2 × Mat2) (k : Nat), k ≤ ms.length →
      (hist st Rk ms).get? k = some (runFrom st Rk (ms.take k)) := by
  intro ms
  induction ms with
  | nil =>
      intro st k hk
      have h0 : k = 0 := Nat.le_zero.mp hk
      subst h0
      rfl
  | cons m ms ih =>
      intro st k hk
      cases k with
      | zero => rfl
      | succ k =>
          have hk' : k ≤ ms.length := Nat.succ_le_succ_iff.mp hk
          show (hist (update st.1 st.2 m.1 m.2 Rk) Rk ms).get? k =
            some (runFrom st Rk ((m :: ms).take (k + 1)))
          rw [ih (update st.1 st.2 m.1 m.2 Rk) k hk']
          rfl

/-! ## Concrete evaluation of the canonical run -/

/-- Step 1 of the canonical run, exactly. -/
theorem step1_eq : update x0 P0 (2/10) (123/100) Rnoise =
    (⟨6208/1165, 172/1165⟩, ⟨801/233, -144/233, -144/233, 153/1165⟩) := by
  simp only [update, gain, innovS, dot, vecMulMat, matMulVec, outer,
    Mat2.mul, Mat2.sub, Mat2.id, Vec2.add, Vec2.smul, x0, P0, Rnoise]
  norm_num

/-- Step 2 of the canonical run, exactly. -/
theorem step2_eq : update ⟨6208/1165, 172/1165⟩
    ⟨801/233, -144/233, -144/233, 153/1165⟩ (3/10) (138/100) Rnoise =
    (⟨3532/957, 1732/4785⟩, ⟨507/319, -120/319, -120/319, 159/1595⟩) := by
  simp only [update, gain, innovS, dot, vecMulMat, matMulVec, outer,
    Mat2.mul, Mat2.sub, Mat2.id, Vec2.add, Vec2.smul, Rnoise]
  norm_num

/-- Step 3 of the canonical run, exactly. -/
theorem step3_eq : update ⟨3532/957, 1732/4785⟩
    ⟨507/319, -120/319, -120/319, 159/1595⟩ (4/10) (206/100) Rnoise =
    (⟨7948/1785, 76/357⟩, ⟨83/119, -24/119, -24/119, 39/595⟩) := by
  simp only [update, gain, innovS, dot, vecMulMat, matMulVec, outer,
    Mat2.mul, Mat2.sub, Mat2.id, Vec2.add, Vec2.smul, Rnoise]
  norm_num

/-- Step 4 of the canonical run, exactly. -/
theorem step4_eq : update ⟨7948/1785, 76/357⟩
    ⟨83/119, -24/119, -24/119, 39/595⟩ (5/10) (247/100) Rnoise =
    (⟨28046/6195, 1208/6195⟩, ⟨141/413, -48/413, -48/413, 93/2065⟩) := by
  simp only [update, gain, innovS, dot, vecMulMat, matMulVec, outer,
    Mat2.mul, Mat2.sub, Mat2.id, Vec2.add, Vec2.smul, Rnoise]
  norm_num

/-- Step 5 of the canonical run, exactly. -/
theorem step5_eq : update ⟨28046/6195, 1208/6195⟩
    ⟨141/413, -48/413, -48/413, 93/2065⟩ (6/10) (317/100) Rnoise =
    (⟨488958/98245, 6844/98245⟩,
     ⟨3681/19649, -1440/19649, -1440/19649, 3249/98245⟩) := by
  simp only [update, gain, innovS, dot, vecMulMat, matMulVec, outer,
    Mat2.mul, Mat2.sub, Mat2.id, Vec2.add, Vec2.smul, Rnoise]
  norm_num

/-- The canonical run in closed form: the exact final state. -/
theorem run_meas_eq : runFrom (x0, P0) Rnoise meas =
    (⟨488958/98245, 6844/98245⟩,
     ⟨3681/19649, -1440/19649, -1440/19649, 3249/98245⟩) := by
  simp only [runFrom, meas, Idata, Vdata, List.zip, List.zipWith, List.foldl,
    step1_eq, step2_eq, step3_eq, step4_eq, step5_eq]

/-- The batch least-squares solution of cell 4 on the canonical data,
exactly: `R = 4.97`, `b = 0.074`. -/
theorem batch_eq : batchLS Idata Vdata = ⟨497/100, 37/500⟩ := by
  simp only [batchLS, Idata, Vdata, List.zip, List.zipWith, List.map,
    List.sum, List.foldr, List.length, Mat2.inv2, Mat2.det, matMulVec]
  norm_num

/-! ## The claims -/

/-- C1: for the canonical dataset, prior `(4,0)`, `P0 = diag(9, 0.2)` and
noise variance `0.0225`, the recursive run over all five measurements gives
final estimates within `1e-3` of `R = 4.9769` and `b = 0.0697`, and these
agree with the closed-form batch least-squares solution on the same data to
within `0.01` in each component. -/
theorem claim1_final_estimates :
    |(runFrom (x0, P0) Rnoise meas).1.x - 49769/10000| ≤ 1/1000 ∧
    |(runFrom (x0, P0) Rnoise meas).1.y - 697/10000| ≤ 1/1000 ∧
    |(runFrom (x0, P0) Rnoise meas).1.x - (batchLS Idata Vdata).x| ≤ 1/100 ∧
    |(runFrom (x0, P0) Rnoise meas).1.y - (batchLS Idata Vdata).y| ≤ 1/100 := by
  rw [run_meas_eq, batch_eq]
  dsimp only
  refine ⟨?_, ?_, ?_, ?_⟩ <;>
  · rw [abs_le]
    constructor <;> norm_num

/-- C2: every call of `update` performs exactly the spec's sequence of
operations: `H = [I_k, 1]`; `S = H P Ht + noise_variance`; `K = P Ht S⁻¹`;
`r = V_k - H x`; `x ← x + K r`; `P ← (I₂ - K H) P` with the pre-update `P`:
for every state and measurement the two agree. -/
theorem claim2_update_matches_spec :
    ∀ (xk : Vec2) (Pk : Mat2) (Ik Vk nv : ℚ),
      update xk Pk Ik Vk nv = spec_update xk Pk Ik Vk nv := by
  intro xk Pk Ik Vk nv
  rfl

/-- C3: monotonic uncertainty shrinkage: from any symmetric
positive-semidefinite covariance and with positive noise variance, each
diagonal entry of the covariance after an update is at most the
corresponding diagonal entry before it. -/
theorem claim3_diag_shrink (xk : Vec2) (Pk : Mat2) (Ik Vk Rk : ℚ)
    (hsym : Pk.b = Pk.c) (ha : 0 ≤ Pk.a) (hd : 0 ≤ Pk.d)
    (hdet : 0 ≤ Mat2.det Pk) (hR : 0 < Rk) :
    (update xk Pk Ik Vk Rk).2.a ≤ Pk.a ∧
    (update xk Pk Ik Vk Rk).2.d ≤ Pk.d := by
  have hS := innovS_pos Pk Ik Rk hsym ha hd hdet hR
  rw [update_P_frac xk Pk Ik Vk Rk hS.ne']
  obtain ⟨a, b, c, d⟩ := Pk
  dsimp only at hsym ha hd ⊢
  subst hsym
  simp only [Mat2.det] at hdet ⊢
  have hSx : innovS ⟨a, b, b, d⟩ Ik Rk = a * Ik ^ 2 + 2 * b * Ik + d + Rk := by
    simp only [innovS, dot, vecMulMat]
    ring
  rw [hSx] at hS
  rw [hSx]
  constructor
  · rw [div_le_iff hS]
    nlinarith [sq_nonneg (a * Ik + b)]
  · rw [div_le_iff hS]
    nlinarith [sq_nonneg (b * Ik + d)]

/-- Witness for C3 at the first canonical measurement. -/
theorem claim3_witness :
    (update x0 P0 (2/10) (123/100) Rnoise).2.a ≤ P0.a ∧
    (update x0 P0 (2/10) (123/100) Rnoise).2.d ≤ P0.d :=
  claim3_diag_shrink x0 P0 (2/10) (123/100) Rnoise rfl
    (by norm_num [P0]) (by norm_num [P0])
    (by norm_num [P0, Mat2.det]) (by norm_num [Rnoise])

/-- C4: starting from a symmetric positive-semidefinite prior covariance
and updating with any measurement list and positive noise variance, the
covariance stays symmetric and positive semidefinite. -/
theorem claim4_psd_preserved (xk : Vec2) (Pk : Mat2) (Rk : ℚ)
    (ms : List (ℚ × ℚ)) (hsym : Pk.b = Pk.c) (ha : 0 ≤ Pk.a)
    (hd : 0 ≤ Pk.d) (hdet : 0 ≤ Mat2.det Pk) (hR : 0 < Rk) :
    (runFrom (xk, Pk) Rk ms).2.b = (runFrom (xk, Pk) Rk ms).2.c ∧
    0 ≤ (runFrom (xk, Pk) Rk ms).2.a ∧ 0 ≤ (runFrom (xk, Pk) Rk ms).2.d ∧
    0 ≤ Mat2.det (runFrom (xk, Pk) Rk ms).2 :=
  runFrom_good Rk hR ms xk Pk hsym ha hd hdet

/-- Witness for C4 on the canonical run. -/
theorem claim4_witness :
    (runFrom (x0, P0) Rnoise meas).2.b = (runFrom (x0, P0) Rnoise meas).2.c ∧
    0 ≤ (runFrom (x0, P0) Rnoise meas).2.a ∧
    0 ≤ (runFrom (x0, P0) Rnoise meas).2.d ∧
    0 ≤ Mat2.det (runFrom (x0, P0) Rnoise meas).2 :=
  claim4_psd_preserved x0 P0 Rnoise meas rfl (by norm_num [P0])
    (by norm_num [P0]) (by norm_num [P0, Mat2.det]) (by norm_num [Rnoise])

/-- C5: order invariance of the final estimate: running the estimator from
the canonical prior over any permutation of the measurement sequence gives
exactly the same final parameter estimate (exact arithmetic). -/
theorem claim5_order_invariance (ms2 : List (ℚ × ℚ)) (hp : meas.Perm ms2) :
    (runFrom (x0, P0) Rnoise ms2).1 = (runFrom (x0, P0) Rnoise meas).1 := by
  have h := runFrom_perm Rnoise (by norm_num [Rnoise]) hp x0 P0 rfl
    (by norm_num [P0]) (by norm_num [P0]) (by norm_num [P0, Mat2.det])
  exact (congrArg Prod.fst h).symm

/-- Witness for C5: the reversed measurement order. -/
theorem claim5_witness :
    (runFrom (x0, P0) Rnoise meas.reverse).1 =
      (runFrom (x0, P0) Rnoise meas).1 :=
  claim5_order_invariance meas.reverse (List.reverse_perm meas).symm

/-- C6 counterexample: with noise variance `-0.01 ≤ 0` (and nonsingular
innovation covariance) the update is not rejected: it executes and mutates
the state, contradicting the claim that every `noise_variance ≤ 0` call is
rejected with the state left unchanged. -/
theorem claim6_counterexample :
    ((-1/100 : ℚ) ≤ 0) ∧
    updateE x0 P0 (2/10) (123/100) (-1/100) ≠ none ∧
    (update x0 P0 (2/10) (123/100) (-1/100)).1 ≠ x0 := by
  have hS : innovS P0 (2/10) (-1/100) = 11/20 := by
    simp only [innovS, dot, vecMulMat, P0]
    norm_num
  refine ⟨by norm_num, ?_, ?_⟩
  · simp only [updateE, hS]
    rw [if_neg (by norm_num : ¬((11 : ℚ)/20 = 0))]
    exact Option.some_ne_none _
  · intro h
    have hx := congrArg Vec2.x h
    have hval : (update x0 P0 (2/10) (123/100) (-1/100)).1.x = 1487/275 := by
      simp only [update, gain, innovS, dot, vecMulMat, matMulVec, Vec2.add,
        Vec2.smul, x0, P0]
      norm_num
    rw [hval] at hx
    simp only [x0] at hx
    norm_num at hx

/-- C6 amended: the code performs no noise-variance validation; the update
fails (the `np.linalg.inv` call raises, modelled as `none`, leaving the
state unassigned) exactly when the innovation covariance is zero, and in
every other case — including `noise_variance ≤ 0` with nonzero innovation
covariance — it executes and returns the updated state. -/
theorem claim6_amended (xk : Vec2) (Pk : Mat2) (Ik Vk Rk : ℚ) :
    updateE xk Pk Ik Vk Rk = none ↔ innovS Pk Ik Rk = 0 := by
  by_cases h : innovS Pk Ik Rk = 0 <;> simp [updateE, h]

/-- C7: the history over `n` measurements has length `n + 1`; entry 0 is
the prior, and entry `k` is the state after the first `k` measurements. -/
theorem claim7_history (st : Vec2 × Mat2) (Rk : ℚ) (ms : List (ℚ × ℚ)) :
    (hist st Rk ms).length = ms.length + 1 ∧
    (hist st Rk ms).get? 0 = some st ∧
    ∀ k, k ≤ ms.length →
      (hist st Rk ms).get? k = some (runFrom st Rk (ms.take k)) := by
  refine ⟨hist_length Rk ms st, ?_, fun k hk => hist_get Rk ms st k hk⟩
  cases ms with
  | nil => rfl
  | cons m ms => rfl

/-- Witness for C7 on the canonical run at index 3. -/
theorem claim7_witness :
    (hist (x0, P0) Rnoise meas).get? 3 =
      some (runFrom (x0, P0) Rnoise (meas.take 3)) :=
  (claim7_history (x0, P0) Rnoise meas).2.2 3 (by simp [meas, Idata, Vdata])

/-- C8: with a diagonal covariance and input `I = 0` (so `H = [0,1]`), the
gain's first component is zero and the update leaves the slope estimate
unchanged. -/
theorem claim8_zero_input (xk : Vec2) (Pk : Mat2) (Vk Rk : ℚ)
    (hb : Pk.b = 0) (hc : Pk.c = 0) :
    (gain Pk 0 Rk).x = 0 ∧ (update xk Pk 0 Vk Rk).1.x = xk.x := by
  obtain ⟨a, b, c, d⟩ := Pk
  dsimp only at hb hc
  subst hb
  subst hc
  constructor
  · simp [gain, matMulVec, Vec2.smul]
  · simp [update, gain, innovS, dot, vecMulMat, matMulVec, Vec2.add, Vec2.smul]

/-- Witness for C8 at the canonical diagonal prior. -/
theorem claim8_witness :
    (gain P0 0 Rnoise).x = 0 ∧ (update x0 P0 0 1 Rnoise).1.x = x0.x :=
  claim8_zero_input x0 P0 1 Rnoise rfl rfl

/-- C9: the in-place reshape changes only the shape, never the element
values; consequently the notebook loop (which reshapes `I` on every
iteration) reads the originally loaded current values, leaves the data
unchanged, and computes the same run as folding over the measurement
pairs. -/
theorem claim9_reshape :
    (∀ (arr : NpArr) (n : Nat), (reshape1 arr n).data = arr.data) ∧
    runNb.2.data = Idata ∧
    runNb.1 = runFrom (x0, P0) Rnoise meas := by
  refine ⟨fun arr n => rfl, rfl, ?_⟩
  rfl

/-- C10: whenever the covariance is symmetric positive semidefinite and the
noise variance is strictly positive, the innovation covariance is strictly
positive, so the 1x1 inversion is well defined and the singular branch is
unreachable. -/
theorem claim10_gain_welldefined (xk : Vec2) (Pk : Mat2) (Ik Vk Rk : ℚ)
    (hsym : Pk.b = Pk.c) (ha : 0 ≤ Pk.a) (hd : 0 ≤ Pk.d)
    (hdet : 0 ≤ Mat2.det Pk) (hR : 0 < Rk) :
    0 < innovS Pk Ik Rk ∧
    updateE xk Pk Ik Vk Rk = some (update xk Pk Ik Vk Rk) := by
  have hS := innovS_pos Pk Ik Rk hsym ha hd hdet hR
  exact ⟨hS, by simp [updateE, hS.ne']⟩

/-- Witness for C10 at the first canonical measurement. -/
theorem claim10_witness :
    0 < innovS P0 (2/10) Rnoise ∧
    updateE x0 P0 (2/10) (123/100) Rnoise =
      some (update x0 P0 (2/10) (123/100) Rnoise) :=
  claim10_gain_welldefined x0 P0 (2/10) (123/100) Rnoise rfl
    (by norm_num [P0]) (by norm_num [P0])
    (by norm_num [P0, Mat2.det]) (by norm_num [Rnoise])

end RLS
